import Mathlib

/-!
Shallow embedding of the CPU ray tracer (`src/CPU/Main.cpp`).

Machine `float` arithmetic is idealised as real arithmetic: every claim
settled here is about the algorithmic structure of the program (branch
conditions, selected roots, scan order, output layout), which the
idealisation preserves.  `INFINITY`, used by the program as a "no hit"
sentinel, is embedded as `Option ℝ` with `none` standing for the sentinel:
the program only ever compares the sentinel with `<` (where it loses to
every finite value and to itself), which the `Option` embedding mirrors
exactly in `scanSpheres`.
-/

namespace RT

/-- Modelled from the spec: the repository's `Vec.h` is not under `src/`.
A 3-component vector with componentwise add/sub, scalar multiply, dot
product and normalisation (divide by the Euclidean norm, unchecked). -/
@[ext] structure Vec where
  x : ℝ
  y : ℝ
  z : ℝ

instance : Add Vec := ⟨fun a b => ⟨a.x + b.x, a.y + b.y, a.z + b.z⟩⟩

instance : Sub Vec := ⟨fun a b => ⟨a.x - b.x, a.y - b.y, a.z - b.z⟩⟩

/-- Scalar times vector, the `float * Vec` operator of the source. -/
def smul (t : ℝ) (v : Vec) : Vec := ⟨t * v.x, t * v.y, t * v.z⟩

/-- Dot product `a.x*b.x + a.y*b.y + a.z*b.z`. -/
def dot (a b : Vec) : ℝ := a.x * b.x + a.y * b.y + a.z * b.z

/-- Modelled from the spec: `normalize(v) = v / sqrt(dot(v,v))`, no check
for a zero-length argument. -/
noncomputable def norm (v : Vec) : Vec :=
  ⟨v.x / Real.sqrt (dot v v), v.y / Real.sqrt (dot v v), v.z / Real.sqrt (dot v v)⟩

/-- Modelled from the spec: the repository's `Ray.h` is not under `src/`.
`A` is the origin, `B` the direction (pre-normalised by the caller). -/
structure Ray where
  A : Vec
  B : Vec

/-- Modelled from the spec: `pointAt(t) = origin + t*direction`, no
validation performed. -/
def Ray.P (r : Ray) (t : ℝ) : Vec := r.A + smul t r.B

/-- Modelled from the spec: the repository's `Sphere.h` is not under
`src/`.  Center, radius, base color and the reserved reflectivity scalar. -/
structure Sphere where
  c : Vec
  r : ℝ
  col : Vec
  refl : ℝ

/-- Placeholder sphere used only to give total meaning to out-of-bounds
list reads; the render loop never reads it (see the scan invariants). -/
def sph0 : Sphere := ⟨⟨0, 0, 0⟩, 0, ⟨0, 0, 0⟩, 0⟩

/-- `intersect_sphere` of `Main.cpp`: returns `some t` for the C++ return
value `t` and `none` for the `INFINITY` sentinel. -/
noncomputable def intersect_sphere (s : Sphere) (r : Ray) : Option ℝ :=
  let Oc := r.A - s.c
  let b := dot r.B Oc
  let c := dot Oc Oc - s.r * s.r
  let disc := b * b - c
  if disc < 0 then none
  else
    let t := -b - Real.sqrt disc
    if t > 0 then some t else none

/-- `phong_shade` of `Main.cpp`: ambient + diffuse + specular. The real
power `^` on a nonnegative base agrees with the source's `powf`. -/
noncomputable def phong_shade (P N V Lpos Kd Ks : Vec) (shin : ℝ) : Vec :=
  let ambient := smul 0.1 Kd
  let L := norm (Lpos - P)
  let diff := max (dot N L) 0
  let diffuse := smul diff Kd
  let R := norm (smul (2 * dot N L) N - L)
  let spec := (max (dot R V) 0) ^ shin
  let specular := smul spec Ks
  ambient + diffuse + specular

/-- `clip` of `Main.cpp`.  In the final branch the C++ `int` cast truncates
a positive operand towards zero, which is the floor. -/
noncomputable def clip (c : ℝ) : ℤ :=
  if c ≤ 0 then 0
  else if 1 ≤ c then 255
  else ⌊c * 255.999⌋

def WIDTH : ℕ := 1024
def HEIGHT : ℕ := 1024
def N_SPHERES : ℕ := 10

def LIGHT : Vec := ⟨-5, -5, 10⟩
def ORIGIN : Vec := ⟨0, 0, 2⟩

/-- The `i`-th sphere of the vertical stack built at the top of `main`. -/
noncomputable def mkSphere (i : ℕ) : Sphere :=
  let y : ℝ := -1 + i * (2 / ((N_SPHERES : ℝ) - 1))
  let z : ℝ := -2 - i * 0.5
  let t : ℝ := ((N_SPHERES : ℝ) - i) / N_SPHERES
  ⟨⟨0, y, z⟩, 0.75, ⟨t, 0.5, 1 - t⟩, 0⟩

/-- The scene `std::vector<Sphere>` after the construction loop. -/
noncomputable def sceneList : List Sphere := (List.range N_SPHERES).map mkSphere

/-- The per-pixel closest-sphere scan of `main`: fold of
`if (t < best_t) { best_t = t; hit_id = k; }` over the remaining spheres,
`k` being the index of the first sphere of the list, `none` the
`INFINITY` sentinel (which never wins a `<` comparison, like `INFINITY`). -/
noncomputable def scanSpheres (r : Ray) : List Sphere → ℕ → Option ℝ × ℤ → Option ℝ × ℤ
  | [], _, acc => acc
  | s :: rest, k, (best, hid) =>
    match intersect_sphere s r, best with
    | none, _ => scanSpheres r rest (k + 1) (best, hid)
    | some t, none => scanSpheres r rest (k + 1) (some t, (k : ℤ))
    | some t, some bt =>
      if t < bt then scanSpheres r rest (k + 1) (some t, (k : ℤ))
      else scanSpheres r rest (k + 1) (some bt, hid)

/-- The whole scan, started from `best_t = INFINITY`, `hit_id = -1`. -/
noncomputable def findHit (ss : List Sphere) (r : Ray) : Option ℝ × ℤ :=
  scanSpheres r ss 0 (none, -1)

/-- The checkered-background branch of `main` (`&1` on the nonnegative
cell-index sum is `% 2`). -/
noncomputable def background (u v : ℝ) : Vec :=
  let ix : ℤ := ⌊(u + 1) * 5⌋
  let iy : ℤ := ⌊(v + 1) * 5⌋
  if (ix + iy) % 2 = 0 then ⟨0.9, 0.9, 0.9⟩ else ⟨0.1, 0.1, 0.1⟩

/-- The hit branch of `main`: normal, view direction and the call into
`phong_shade` with the sphere's color, white specular and shininess 32. -/
noncomputable def shadeHit (ss : List Sphere) (cam light : Vec) (r : Ray) (t : ℝ) (k : ℕ) : Vec :=
  let s := ss.getD k sph0
  let P := r.P t
  let N := norm (P - s.c)
  let Vc := norm (cam - P)
  let Kd := s.col
  let Ks : Vec := ⟨1, 1, 1⟩
  phong_shade P N Vc light Kd Ks 32

/-- One pixel of the render loop: camera ray, scan, then the
`hit_id >= 0` branch.  In the hit branch the scan invariants (proved
below) guarantee `best` is `some t` and the index is in bounds, so the
`getD` defaults are never read. -/
noncomputable def renderPixel (ss : List Sphere) (cam light : Vec) (u v : ℝ) : Vec :=
  let dir := norm (Vec.mk u v 0 - cam)
  let r : Ray := ⟨cam, dir⟩
  let res := findHit ss r
  if 0 ≤ res.2 then shadeHit ss cam light r (res.1.getD 0) res.2.toNat
  else background u v

/-- Normalised screen coordinate `u = -1 + 2*i/(WIDTH-1)`. -/
noncomputable def uCoord (W i : ℕ) : ℝ := -1 + 2 * (i : ℝ) / ((W : ℝ) - 1)

/-- Normalised screen coordinate `v = -1 + 2*j/(HEIGHT-1)`. -/
noncomputable def vCoord (H j : ℕ) : ℝ := -1 + 2 * (j : ℝ) / ((H : ℝ) - 1)

/-- The three quantised channels of one pixel, as written by `main`. -/
noncomputable def pixelLine (ss : List Sphere) (cam light : Vec) (u v : ℝ) : String :=
  toString (clip (renderPixel ss cam light u v).x) ++ " " ++
  toString (clip (renderPixel ss cam light u v).y) ++ " " ++
  toString (clip (renderPixel ss cam light u v).z)

/-- The whole standard-output stream of the program, line by line: PPM
header, then one pixel line per pixel, `j` descending, `i` ascending. -/
noncomputable def renderScene (ss : List Sphere) (cam light : Vec) (W H : ℕ) : List String :=
  ["P3", toString W ++ " " ++ toString H, "255"] ++
    (List.range H).reverse.flatMap fun j =>
      (List.range W).map fun i =>
        pixelLine ss cam light (uCoord W i) (vCoord H j)

/-- The output of the program as compiled: fixed scene, camera, light and
resolution. -/
noncomputable def outputLines : List String :=
  renderScene sceneList ORIGIN LIGHT WIDTH HEIGHT

/-- Zero the reserved reflectivity field, keeping center, radius, color. -/
noncomputable def stripRefl (s : Sphere) : Sphere := ⟨s.c, s.r, s.col, 0⟩

/-- The vector the render loop normalises to build pixel `(i,j)`'s camera
ray: `Vec(u,v,0) - ORIGIN`. -/
noncomputable def camRayVec (i j : ℕ) : Vec :=
  Vec.mk (uCoord WIDTH i) (vCoord HEIGHT j) 0 - ORIGIN

/-- Pixel `(i,j)`'s camera ray, as built by the render loop. -/
noncomputable def camRay (i j : ℕ) : Ray := ⟨ORIGIN, norm (camRayVec i j)⟩

/-- `best_t` after the scan for pixel `(i,j)` (junk `0` for the sentinel,
never used: the shading branch requires a hit). -/
noncomputable def hitT (i j : ℕ) : ℝ := (findHit sceneList (camRay i j)).1.getD 0

/-- The sphere indexed by `hit_id` for pixel `(i,j)`. -/
noncomputable def hitSphere (i j : ℕ) : Sphere :=
  sceneList.getD (findHit sceneList (camRay i j)).2.toNat sph0

/-- The hit point `r.P(best_t)` for pixel `(i,j)`. -/
noncomputable def hitPoint (i j : ℕ) : Vec := (camRay i j).P (hitT i j)

/-- The vector normalised into the surface normal: `P - center`. -/
noncomputable def hitNormalVec (i j : ℕ) : Vec := hitPoint i j - (hitSphere i j).c

/-- The vector normalised into the view direction: `ORIGIN - P`. -/
noncomputable def viewVec (i j : ℕ) : Vec := ORIGIN - hitPoint i j

/-- The vector normalised into the light direction inside `phong_shade`:
`LIGHT - P`. -/
noncomputable def lightVec (i j : ℕ) : Vec := LIGHT - hitPoint i j

/-- The vector normalised into the reflection direction inside
`phong_shade`: `2*dot(N,L)*N - L`. -/
noncomputable def reflVec (i j : ℕ) : Vec :=
  smul (2 * dot (norm (hitNormalVec i j)) (norm (lightVec i j)))
    (norm (hitNormalVec i j)) - norm (lightVec i j)

@[simp] lemma add_x (a b : Vec) : (a + b).x = a.x + b.x := rfl

@[simp] lemma add_y (a b : Vec) : (a + b).y = a.y + b.y := rfl

@[simp] lemma add_z (a b : Vec) : (a + b).z = a.z + b.z := rfl

@[simp] lemma sub_x (a b : Vec) : (a - b).x = a.x - b.x := rfl

@[simp] lemma sub_y (a b : Vec) : (a - b).y = a.y - b.y := rfl

@[simp] lemma sub_z (a b : Vec) : (a - b).z = a.z - b.z := rfl

@[simp] lemma smul_x (t : ℝ) (v : Vec) : (smul t v).x = t * v.x := rfl

@[simp] lemma smul_y (t : ℝ) (v : Vec) : (smul t v).y = t * v.y := rfl

@[simp] lemma smul_z (t : ℝ) (v : Vec) : (smul t v).z = t * v.z := rfl

lemma dot_self_nonneg (v : Vec) : 0 ≤ dot v v := by
  unfold dot; nlinarith [sq_nonneg v.x, sq_nonneg v.y, sq_nonneg v.z]

lemma dot_norm_self {v : Vec} (h : 0 < dot v v) : dot (norm v) (norm v) = 1 := by
  have hs : Real.sqrt (dot v v) * Real.sqrt (dot v v) = dot v v :=
    Real.mul_self_sqrt h.le
  have hs0 : Real.sqrt (dot v v) ≠ 0 := ne_of_gt (Real.sqrt_pos.mpr h)
  rw [show norm v =
      ⟨v.x / Real.sqrt (dot v v), v.y / Real.sqrt (dot v v), v.z / Real.sqrt (dot v v)⟩ from rfl]
  show v.x / _ * (v.x / _) + v.y / _ * (v.y / _) + v.z / _ * (v.z / _) = 1
  field_simp
  unfold dot
  ring

/-- What a `some` result of the intersection test certifies: the
discriminant is nonnegative and the returned root is the positive near
root. -/
lemma intersect_some {s : Sphere} {r : Ray} {t : ℝ}
    (h : intersect_sphere s r = some t) :
    0 < t ∧
    0 ≤ dot r.B (r.A - s.c) * dot r.B (r.A - s.c) -
        (dot (r.A - s.c) (r.A - s.c) - s.r * s.r) ∧
    t = -dot r.B (r.A - s.c) -
        Real.sqrt (dot r.B (r.A - s.c) * dot r.B (r.A - s.c) -
          (dot (r.A - s.c) (r.A - s.c) - s.r * s.r)) := by
  simp only [intersect_sphere] at h
  split at h
  next h1 => exact Option.noConfusion h
  next h1 =>
    split at h
    next h2 =>
      have h3 := Option.some.inj h
      subst h3
      exact ⟨h2, not_lt.mp h1, rfl⟩
    next h2 => exact Option.noConfusion h

end RT

namespace RT

/-- C1: `intersect_sphere` forms `oc = origin - center`,
`b = dot(direction, oc)`, `c = dot(oc,oc) - radius²`, `disc = b² - c`;
it returns the NO_HIT sentinel when `disc < 0`, and otherwise returns
`t = -b - sqrt(disc)` exactly when `t > 0`, the sentinel when `t ≤ 0`. -/
theorem intersect_sphere_spec (s : Sphere) (r : Ray) :
    (dot r.B (r.A - s.c) * dot r.B (r.A - s.c) -
        (dot (r.A - s.c) (r.A - s.c) - s.r * s.r) < 0 →
      intersect_sphere s r = none) ∧
    (0 ≤ dot r.B (r.A - s.c) * dot r.B (r.A - s.c) -
        (dot (r.A - s.c) (r.A - s.c) - s.r * s.r) →
      (0 < -dot r.B (r.A - s.c) -
          Real.sqrt (dot r.B (r.A - s.c) * dot r.B (r.A - s.c) -
            (dot (r.A - s.c) (r.A - s.c) - s.r * s.r)) →
        intersect_sphere s r = some (-dot r.B (r.A - s.c) -
          Real.sqrt (dot r.B (r.A - s.c) * dot r.B (r.A - s.c) -
            (dot (r.A - s.c) (r.A - s.c) - s.r * s.r)))) ∧
      (-dot r.B (r.A - s.c) -
          Real.sqrt (dot r.B (r.A - s.c) * dot r.B (r.A - s.c) -
            (dot (r.A - s.c) (r.A - s.c) - s.r * s.r)) ≤ 0 →
        intersect_sphere s r = none)) := by
  refine ⟨fun h => ?_, fun h => ⟨fun h2 => ?_, fun h2 => ?_⟩⟩
  · simp only [intersect_sphere]
    rw [if_pos h]
  · simp only [intersect_sphere]
    rw [if_neg (not_lt.mpr h), if_pos h2]
  · simp only [intersect_sphere]
    rw [if_neg (not_lt.mpr h), if_neg (not_lt.mpr h2)]

/-- A closed instance of `intersect_sphere_spec`: the ray from `(0,0,5)`
along `(1,0,0)` misses the unit sphere at the origin (`disc = -24 < 0`). -/
theorem intersect_sphere_spec_witness :
    intersect_sphere ⟨⟨0, 0, 0⟩, 1, ⟨0, 0, 0⟩, 0⟩ ⟨⟨0, 0, 5⟩, ⟨1, 0, 0⟩⟩ = none :=
  (intersect_sphere_spec ⟨⟨0, 0, 0⟩, 1, ⟨0, 0, 0⟩, 0⟩ ⟨⟨0, 0, 5⟩, ⟨1, 0, 0⟩⟩).1
    (by norm_num [dot])

/-- C2: `phong_shade` returns exactly
`0.1*Kd + max(dot(N,L),0)*Kd + max(dot(R,V),0)^shininess * Ks` with
`L = normalize(Lpos - P)` and `R = normalize(2*dot(N,L)*N - L)`, summed
componentwise with no clamping; when `dot(N,L) < 0` the diffuse factor is
exactly `0` and the diffuse term drops out entirely. -/
theorem phong_shade_spec (P N V Lpos Kd Ks : Vec) (shin : ℝ) :
    (phong_shade P N V Lpos Kd Ks shin =
      smul 0.1 Kd + smul (max (dot N (norm (Lpos - P))) 0) Kd +
        smul ((max (dot (norm (smul (2 * dot N (norm (Lpos - P))) N - norm (Lpos - P))) V) 0)
          ^ shin) Ks) ∧
    (dot N (norm (Lpos - P)) < 0 →
      max (dot N (norm (Lpos - P))) 0 = 0 ∧
      phong_shade P N V Lpos Kd Ks shin =
        smul 0.1 Kd +
          smul ((max (dot (norm (smul (2 * dot N (norm (Lpos - P))) N - norm (Lpos - P))) V) 0)
            ^ shin) Ks) := by
  refine ⟨rfl, fun h => ?_⟩
  have hmax : max (dot N (norm (Lpos - P))) 0 = 0 := max_eq_right h.le
  refine ⟨hmax, ?_⟩
  show smul 0.1 Kd + smul (max (dot N (norm (Lpos - P))) 0) Kd + _ = _
  rw [hmax]
  ext <;> simp

/-- A closed instance of `phong_shade_spec`: with `N = (0,0,-1)` and the
light one unit above the hit point, `dot(N,L) = -1 < 0` and the diffuse
factor is `0`. -/
theorem phong_shade_spec_witness :
    max (dot ⟨0, 0, -1⟩ (norm ((⟨0, 0, 1⟩ : Vec) - ⟨0, 0, 0⟩))) 0 = 0 :=
  ((phong_shade_spec ⟨0, 0, 0⟩ ⟨0, 0, -1⟩ ⟨0, 0, 1⟩ ⟨0, 0, 1⟩ ⟨1, 1, 1⟩ ⟨1, 1, 1⟩ 32).2
    (by norm_num [dot, norm])).1

/-- C4: `clip` maps `c ≤ 0` to `0`, `c ≥ 1` to `255` and anything in
between to `⌊c * 255.999⌋`; the result always lies in `[0, 255]`; in
particular `0 ↦ 0`, `1 ↦ 255`, negatives `↦ 0` and `0.999999 ↦ 255`. -/
theorem clip_spec :
    (∀ c : ℝ, c ≤ 0 → clip c = 0) ∧
    (∀ c : ℝ, 1 ≤ c → clip c = 255) ∧
    (∀ c : ℝ, 0 < c → c < 1 → clip c = ⌊c * 255.999⌋) ∧
    (∀ c : ℝ, 0 ≤ clip c ∧ clip c ≤ 255) ∧
    clip 0 = 0 ∧ clip 1 = 255 ∧ (∀ c : ℝ, c < 0 → clip c = 0) ∧
    clip 0.999999 = 255 := by
  have h0 : ∀ c : ℝ, c ≤ 0 → clip c = 0 := by
    intro c h; rw [clip, if_pos h]
  have h1 : ∀ c : ℝ, 1 ≤ c → clip c = 255 := by
    intro c h
    rw [clip, if_neg (by linarith), if_pos h]
  have hmid : ∀ c : ℝ, 0 < c → c < 1 → clip c = ⌊c * 255.999⌋ := by
    intro c hc hc1
    rw [clip, if_neg (by linarith), if_neg (by linarith)]
  have hrange : ∀ c : ℝ, 0 ≤ clip c ∧ clip c ≤ 255 := by
    intro c
    rcases le_or_lt c 0 with h | h
    · rw [h0 c h]; exact ⟨le_refl 0, by norm_num⟩
    rcases le_or_lt 1 c with h' | h'
    · rw [h1 c h']; exact ⟨by norm_num, le_refl 255⟩
    rw [hmid c h h']
    constructor
    · exact Int.floor_nonneg.mpr (by nlinarith)
    · have : (⌊c * 255.999⌋ : ℤ) < 256 := by
        rw [Int.floor_lt]; push_cast; nlinarith
      omega
  refine ⟨h0, h1, hmid, hrange, h0 0 le_rfl, h1 1 le_rfl, fun c h => h0 c h.le, ?_⟩
  rw [hmid 0.999999 (by norm_num) (by norm_num)]
  exact Int.floor_eq_iff.mpr (by norm_num)

/-- C5: a no-hit pixel's color is the pure checkerboard function of
`(u,v)`: cell indices `ix = ⌊(u+1)*5⌋`, `iy = ⌊(v+1)*5⌋`, light color
`(0.9,0.9,0.9)` when `ix + iy` is even, dark `(0.1,0.1,0.1)` when odd,
and re-evaluation at equal coordinates gives the identical result. -/
theorem background_spec (u v : ℝ) :
    (background u v =
      if (⌊(u + 1) * 5⌋ + ⌊(v + 1) * 5⌋) % 2 = 0 then (⟨0.9, 0.9, 0.9⟩ : Vec)
      else ⟨0.1, 0.1, 0.1⟩) ∧
    (Even (⌊(u + 1) * 5⌋ + ⌊(v + 1) * 5⌋) → background u v = ⟨0.9, 0.9, 0.9⟩) ∧
    (¬ Even (⌊(u + 1) * 5⌋ + ⌊(v + 1) * 5⌋) → background u v = ⟨0.1, 0.1, 0.1⟩) ∧
    (∀ u' v' : ℝ, u' = u → v' = v → background u' v' = background u v) := by
  refine ⟨rfl, fun h => ?_, fun h => ?_, fun u' v' hu hv => by rw [hu, hv]⟩
  · rw [background.eq_1, if_pos (Int.even_iff.mp h)]
  · rw [background.eq_1, if_neg (fun hmod => h (Int.even_iff.mpr hmod))]

/-- A closed instance of `background_spec`: the cell of `(u,v) = (0,0)`
has index sum `5 + 5 = 10`, even, so the background there is light. -/
theorem background_spec_witness : background 0 0 = ⟨0.9, 0.9, 0.9⟩ :=
  (background_spec 0 0).2.1 (by norm_num [Int.even_iff])

/-- Full characterisation of the closest-sphere scan, generalised over the
accumulator: either nothing in `ss` improves on the incoming best (the
accumulator comes back unchanged and every hit in `ss` is at least the
incoming best), or the scan returns the smallest improving hit at the
first index attaining it. -/
lemma scanSpheres_spec (r : Ray) (ss : List Sphere) :
    ∀ (k0 : ℕ) (best : Option ℝ) (hid : ℤ),
      (scanSpheres r ss k0 (best, hid) = (best, hid) ∧
        ∀ i, i < ss.length → ∀ t, intersect_sphere (ss.getD i sph0) r = some t →
          ∃ b0, best = some b0 ∧ b0 ≤ t) ∨
      (∃ i, i < ss.length ∧ ∃ t, intersect_sphere (ss.getD i sph0) r = some t ∧
        (scanSpheres r ss k0 (best, hid)).1 = some t ∧
        (scanSpheres r ss k0 (best, hid)).2 = (k0 : ℤ) + i ∧
        (∀ b0, best = some b0 → t < b0) ∧
        (∀ j, j < i → ∀ t', intersect_sphere (ss.getD j sph0) r = some t' → t < t') ∧
        (∀ j, j < ss.length → ∀ t', intersect_sphere (ss.getD j sph0) r = some t' → t ≤ t')) := by
  induction ss with
  | nil =>
    intro k0 best hid
    left
    exact ⟨rfl, fun i hi => absurd hi (by simp)⟩
  | cons s rest ih =>
    intro k0 best hid
    cases h0 : intersect_sphere s r with
    | none =>
      have hstep : scanSpheres r (s :: rest) k0 (best, hid)
          = scanSpheres r rest (k0 + 1) (best, hid) := by
        simp [scanSpheres, h0]
      rcases ih (k0 + 1) best hid with ⟨heq, hall⟩ |
        ⟨i, hi, t, hti, h1, h2, hbest, hearly, hmin⟩
      · left
        refine ⟨hstep.trans heq, ?_⟩
        intro i hi t ht
        match i with
        | 0 => rw [List.getD_cons_zero, h0] at ht; exact Option.noConfusion ht
        | n + 1 =>
          rw [List.getD_cons_succ] at ht
          exact hall n (by simpa using hi) t ht
      · right
        refine ⟨i + 1, by simpa using hi, t, by simpa using hti, ?_, ?_, hbest, ?_, ?_⟩
        · rw [hstep]; exact h1
        · rw [hstep, h2]; push_cast; ring
        · intro j hj t' ht'
          match j with
          | 0 => rw [List.getD_cons_zero, h0] at ht'; exact Option.noConfusion ht'
          | n + 1 =>
            rw [List.getD_cons_succ] at ht'
            exact hearly n (by omega) t' ht'
        · intro j hj t' ht'
          match j with
          | 0 => rw [List.getD_cons_zero, h0] at ht'; exact Option.noConfusion ht'
          | n + 1 =>
            rw [List.getD_cons_succ] at ht'
            exact hmin n (by simpa using hj) t' ht'
    | some t0 =>
      cases best with
      | none =>
        have hstep : scanSpheres r (s :: rest) k0 (none, hid)
            = scanSpheres r rest (k0 + 1) (some t0, (k0 : ℤ)) := by
          simp [scanSpheres, h0]
        rcases ih (k0 + 1) (some t0) (k0 : ℤ) with ⟨heq, hall⟩ |
          ⟨i, hi, t, hti, h1, h2, hbest, hearly, hmin⟩
        · right
          refine ⟨0, by simp, t0, by simpa using h0, ?_, ?_, ?_, ?_, ?_⟩
          · rw [hstep, heq]
          · rw [hstep, heq]; push_cast; ring
          · intro b0 hb0; exact Option.noConfusion hb0
          · intro j hj; omega
          · intro j hj t' ht'
            match j with
            | 0 =>
              rw [List.getD_cons_zero, h0] at ht'
              exact le_of_eq (Option.some.inj ht')
            | n + 1 =>
              rw [List.getD_cons_succ] at ht'
              obtain ⟨b0, hb0, hle⟩ := hall n (by simpa using hj) t' ht'
              exact le_trans (le_of_eq (Option.some.inj hb0)) hle
        · right
          have htt0 : t < t0 := hbest t0 rfl
          refine ⟨i + 1, by simpa using hi, t, by simpa using hti, ?_, ?_, ?_, ?_, ?_⟩
          · rw [hstep]; exact h1
          · rw [hstep, h2]; push_cast; ring
          · intro b0 hb0; exact Option.noConfusion hb0
          · intro j hj t' ht'
            match j with
            | 0 =>
              rw [List.getD_cons_zero, h0] at ht'
              rw [← Option.some.inj ht']; exact htt0
            | n + 1 =>
              rw [List.getD_cons_succ] at ht'
              exact hearly n (by omega) t' ht'
          · intro j hj t' ht'
            match j with
            | 0 =>
              rw [List.getD_cons_zero, h0] at ht'
              rw [← Option.some.inj ht']; exact htt0.le
            | n + 1 =>
              rw [List.getD_cons_succ] at ht'
              exact hmin n (by simpa using hj) t' ht'
      | some bt =>
        by_cases hlt : t0 < bt
        · have hstep : scanSpheres r (s :: rest) k0 (some bt, hid)
              = scanSpheres r rest (k0 + 1) (some t0, (k0 : ℤ)) := by
            simp [scanSpheres, h0, hlt]
          rcases ih (k0 + 1) (some t0) (k0 : ℤ) with ⟨heq, hall⟩ |
            ⟨i, hi, t, hti, h1, h2, hbest, hearly, hmin⟩
          · right
            refine ⟨0, by simp, t0, by simpa using h0, ?_, ?_, ?_, ?_, ?_⟩
            · rw [hstep, heq]
            · rw [hstep, heq]; push_cast; ring
            · intro b0 hb0; rw [← Option.some.inj hb0]; exact hlt
            · intro j hj; omega
            · intro j hj t' ht'
              match j with
              | 0 =>
                rw [List.getD_cons_zero, h0] at ht'
                exact le_of_eq (Option.some.inj ht')
              | n + 1 =>
                rw [List.getD_cons_succ] at ht'
                obtain ⟨b0, hb0, hle⟩ := hall n (by simpa using hj) t' ht'
                exact le_trans (le_of_eq (Option.some.inj hb0)) hle
          · right
            have htt0 : t < t0 := hbest t0 rfl
            refine ⟨i + 1, by simpa using hi, t, by simpa using hti, ?_, ?_, ?_, ?_, ?_⟩
            · rw [hstep]; exact h1
            · rw [hstep, h2]; push_cast; ring
            · intro b0 hb0; rw [← Option.some.inj hb0]; exact lt_trans htt0 hlt
            · intro j hj t' ht'
              match j with
              | 0 =>
                rw [List.getD_cons_zero, h0] at ht'
                rw [← Option.some.inj ht']; exact htt0
              | n + 1 =>
                rw [List.getD_cons_succ] at ht'
                exact hearly n (by omega) t' ht'
            · intro j hj t' ht'
              match j with
              | 0 =>
                rw [List.getD_cons_zero, h0] at ht'
                rw [← Option.some.inj ht']; exact htt0.le
              | n + 1 =>
                rw [List.getD_cons_succ] at ht'
                exact hmin n (by simpa using hj) t' ht'
        · have hstep : scanSpheres r (s :: rest) k0 (some bt, hid)
              = scanSpheres r rest (k0 + 1) (some bt, hid) := by
            simp [scanSpheres, h0, hlt]
          rcases ih (k0 + 1) (some bt) hid with ⟨heq, hall⟩ |
            ⟨i, hi, t, hti, h1, h2, hbest, hearly, hmin⟩
          · left
            refine ⟨hstep.trans heq, ?_⟩
            intro i hi t ht
            match i with
            | 0 =>
              rw [List.getD_cons_zero, h0] at ht
              exact ⟨bt, rfl, le_of_not_lt (fun hc => hlt (Option.some.inj ht ▸ hc))⟩
            | n + 1 =>
              rw [List.getD_cons_succ] at ht
              exact hall n (by simpa using hi) t ht
          · right
            have htbt : t < bt := hbest bt rfl
            refine ⟨i + 1, by simpa using hi, t, by simpa using hti, ?_, ?_, ?_, ?_, ?_⟩
            · rw [hstep]; exact h1
            · rw [hstep, h2]; push_cast; ring
            · intro b0 hb0; rw [← Option.some.inj hb0]; exact htbt
            · intro j hj t' ht'
              match j with
              | 0 =>
                rw [List.getD_cons_zero, h0] at ht'
                rw [← Option.some.inj ht']
                exact lt_of_lt_of_le htbt (le_of_not_lt hlt)
              | n + 1 =>
                rw [List.getD_cons_succ] at ht'
                exact hearly n (by omega) t' ht'
            · intro j hj t' ht'
              match j with
              | 0 =>
                rw [List.getD_cons_zero, h0] at ht'
                rw [← Option.some.inj ht']
                exact le_trans htbt.le (le_of_not_lt hlt)
              | n + 1 =>
                rw [List.getD_cons_succ] at ht'
                exact hmin n (by simpa using hj) t' ht'

/-- The whole scan from the initial accumulator `(INFINITY, -1)`: either
no sphere hits and the accumulator is untouched, or the result is the
smallest hit, attained first at the reported index. -/
lemma findHit_cases (ss : List Sphere) (r : Ray) :
    ((findHit ss r).1 = none ∧ (findHit ss r).2 = -1 ∧
      ∀ i, i < ss.length → intersect_sphere (ss.getD i sph0) r = none) ∨
    (∃ i, i < ss.length ∧ ∃ t, intersect_sphere (ss.getD i sph0) r = some t ∧
      (findHit ss r).1 = some t ∧ (findHit ss r).2 = (i : ℤ) ∧
      (∀ j, j < i → ∀ t', intersect_sphere (ss.getD j sph0) r = some t' → t < t') ∧
      (∀ j, j < ss.length → ∀ t', intersect_sphere (ss.getD j sph0) r = some t' → t ≤ t')) := by
  rcases scanSpheres_spec r ss 0 none (-1) with ⟨heq, hall⟩ |
    ⟨i, hi, t, hti, h1, h2, _, hearly, hmin⟩
  · left
    refine ⟨?_, ?_, ?_⟩
    · show (scanSpheres r ss 0 (none, -1)).1 = none
      rw [heq]
    · show (scanSpheres r ss 0 (none, -1)).2 = -1
      rw [heq]
    · intro i hi
      cases hcase : intersect_sphere (ss.getD i sph0) r with
      | none => rfl
      | some t =>
        obtain ⟨b0, hb0, _⟩ := hall i hi t hcase
        exact Option.noConfusion hb0
  · right
    refine ⟨i, hi, t, hti, h1, ?_, hearly, hmin⟩
    show (scanSpheres r ss 0 (none, -1)).2 = (i : ℤ)
    rw [h2]; push_cast; ring

lemma sceneList_length : sceneList.length = 10 := by
  simp [sceneList, N_SPHERES]

/-- C3: the render loop's scan covers the whole 10-sphere scene through
the intersection test, keeps the minimum positive hit distance with the
index of the sphere producing it, and on exactly equal distances the
first sphere in scan order wins (every earlier sphere's hit is strictly
larger than the winning distance). -/
theorem scan_selects_min (r : Ray) :
    sceneList.length = 10 ∧
    (∀ k, k < 10 → ∀ t, intersect_sphere (sceneList.getD k sph0) r = some t →
      ∃ bt, (findHit sceneList r).1 = some bt ∧ bt ≤ t) ∧
    (∀ bt, (findHit sceneList r).1 = some bt →
      ∃ k : ℕ, k < 10 ∧ (findHit sceneList r).2 = (k : ℤ) ∧
        intersect_sphere (sceneList.getD k sph0) r = some bt ∧
        ∀ j : ℕ, j < k → ∀ t', intersect_sphere (sceneList.getD j sph0) r = some t' →
          bt < t') := by
  refine ⟨sceneList_length, ?_, ?_⟩
  · intro k hk t ht
    rcases findHit_cases sceneList r with ⟨h1, h2, hnone⟩ |
      ⟨i, hi, t', ht', h1, h2, hearly, hmin⟩
    · rw [hnone k (by rw [sceneList_length]; omega)] at ht
      exact Option.noConfusion ht
    · exact ⟨t', h1, hmin k (by rw [sceneList_length]; omega) t ht⟩
  · intro bt hbt
    rcases findHit_cases sceneList r with ⟨h1, h2, hnone⟩ |
      ⟨i, hi, t', ht', h1, h2, hearly, hmin⟩
    · rw [h1] at hbt; exact Option.noConfusion hbt
    · rw [h1] at hbt
      obtain rfl := Option.some.inj hbt
      exact ⟨i, by rw [sceneList_length] at hi; omega, h2, ht', hearly⟩

/-- C10: after the scan, the hit index is nonnegative exactly when the
best distance is finite (not the INFINITY sentinel); and whenever the
shading branch is taken the index is in `[0, 10)`, the best distance is
the strictly positive value returned by `intersect_sphere` on the
indexed sphere, so `Ray.P` is never evaluated at the sentinel. -/
theorem scan_hit_invariant (r : Ray) :
    (0 ≤ (findHit sceneList r).2 ↔ (findHit sceneList r).1 ≠ none) ∧
    (∀ t, (findHit sceneList r).1 = some t →
      0 ≤ (findHit sceneList r).2 ∧ (findHit sceneList r).2 < 10 ∧ 0 < t ∧
      intersect_sphere (sceneList.getD (findHit sceneList r).2.toNat sph0) r
        = some t) := by
  rcases findHit_cases sceneList r with ⟨h1, h2, hnone⟩ |
    ⟨i, hi, t', ht', h1, h2, hearly, hmin⟩
  · constructor
    · rw [h1, h2]
      constructor
      · intro h; omega
      · intro h; exact absurd rfl h
    · intro t ht; rw [h1] at ht; exact Option.noConfusion ht
  · rw [sceneList_length] at hi
    constructor
    · rw [h1, h2]
      constructor
      · intro _; simp
      · intro _; omega
    · intro t ht
      rw [h1] at ht
      obtain rfl := Option.some.inj ht
      refine ⟨by rw [h2]; omega, by rw [h2]; omega, (intersect_some ht').1, ?_⟩
      rw [h2]
      simpa using ht'

lemma intersect_stripRefl (s : Sphere) (r : Ray) :
    intersect_sphere (stripRefl s) r = intersect_sphere s r := rfl

lemma scan_stripRefl (r : Ray) (ss : List Sphere) :
    ∀ (k : ℕ) (acc : Option ℝ × ℤ),
      scanSpheres r (ss.map stripRefl) k acc = scanSpheres r ss k acc := by
  induction ss with
  | nil => intro k acc; rfl
  | cons s rest ih =>
    intro k acc
    obtain ⟨best, hid⟩ := acc
    cases h0 : intersect_sphere s r with
    | none => simp [scanSpheres, intersect_stripRefl, h0, ih]
    | some t0 =>
      cases best with
      | none => simp [scanSpheres, intersect_stripRefl, h0, ih]
      | some bt =>
        by_cases hlt : t0 < bt <;>
          simp [scanSpheres, intersect_stripRefl, h0, hlt, ih]

lemma getD_map_stripRefl (ss : List Sphere) (k : ℕ) :
    (ss.map stripRefl).getD k sph0 = stripRefl (ss.getD k sph0) := by
  induction ss generalizing k with
  | nil => cases k <;> rfl
  | cons s rest ih =>
    cases k with
    | zero => rfl
    | succ n => exact ih n

lemma shadeHit_stripRefl (ss : List Sphere) (cam light : Vec) (r : Ray) (t : ℝ) (k : ℕ) :
    shadeHit (ss.map stripRefl) cam light r t k = shadeHit ss cam light r t k := by
  unfold shadeHit
  rw [getD_map_stripRefl]
  rfl

lemma renderPixel_stripRefl (ss : List Sphere) (cam light : Vec) (u v : ℝ) :
    renderPixel (ss.map stripRefl) cam light u v = renderPixel ss cam light u v := by
  unfold renderPixel findHit
  simp only [scan_stripRefl, shadeHit_stripRefl]

lemma pixelLine_stripRefl (ss : List Sphere) (cam light : Vec) (u v : ℝ) :
    pixelLine (ss.map stripRefl) cam light u v = pixelLine ss cam light u v := by
  unfold pixelLine
  rw [renderPixel_stripRefl]

lemma renderScene_stripRefl (ss : List Sphere) (cam light : Vec) (W H : ℕ) :
    renderScene (ss.map stripRefl) cam light W H = renderScene ss cam light W H := by
  simp only [renderScene, pixelLine_stripRefl]

/-- C9: the reflectivity field is inert — two scenes whose spheres agree
on centers, radii and colors (reflectivities arbitrary) render to the
identical pixel stream; no computation on the render path reads the
field. -/
theorem reflectivity_inert (ss1 ss2 : List Sphere) (cam light : Vec) (W H : ℕ)
    (hlen : ss1.length = ss2.length)
    (hfields : ∀ k, k < ss1.length →
      (ss1.getD k sph0).c = (ss2.getD k sph0).c ∧
      (ss1.getD k sph0).r = (ss2.getD k sph0).r ∧
      (ss1.getD k sph0).col = (ss2.getD k sph0).col) :
    renderScene ss1 cam light W H = renderScene ss2 cam light W H := by
  have hmap : ss1.map stripRefl = ss2.map stripRefl := by
    apply List.ext_getElem (by simpa using hlen)
    intro k h1 h2
    simp only [List.getElem_map]
    have hk : k < ss1.length := by simpa using h1
    obtain ⟨hc, hr, hcol⟩ := hfields k hk
    rw [List.getD_eq_getElem ss1 sph0 hk,
        List.getD_eq_getElem ss2 sph0 (by omega)] at hc hr hcol
    · show stripRefl ss1[k] = stripRefl ss2[k]
      unfold stripRefl
      rw [hc, hr, hcol]
  calc renderScene ss1 cam light W H
      = renderScene (ss1.map stripRefl) cam light W H :=
        (renderScene_stripRefl ss1 cam light W H).symm
    _ = renderScene (ss2.map stripRefl) cam light W H := by rw [hmap]
    _ = renderScene ss2 cam light W H := renderScene_stripRefl ss2 cam light W H

/-- A closed instance of `reflectivity_inert`: two single-sphere scenes
differing only in the reflectivity scalar render identically. -/
theorem reflectivity_inert_witness :
    renderScene [⟨⟨0, 0, -3⟩, 1, ⟨1, 0, 0⟩, 0.25⟩] ⟨0, 0, 2⟩ ⟨-5, -5, 10⟩ 4 4 =
      renderScene [⟨⟨0, 0, -3⟩, 1, ⟨1, 0, 0⟩, 0.75⟩] ⟨0, 0, 2⟩ ⟨-5, -5, 10⟩ 4 4 :=
  reflectivity_inert [⟨⟨0, 0, -3⟩, 1, ⟨1, 0, 0⟩, 0.25⟩]
    [⟨⟨0, 0, -3⟩, 1, ⟨1, 0, 0⟩, 0.75⟩] ⟨0, 0, 2⟩ ⟨-5, -5, 10⟩ 4 4 rfl
    (by
      intro k hk
      obtain rfl : k = 0 := by simpa using hk
      exact ⟨rfl, rfl, rfl⟩)

/-- Indexing a concatenation of blocks of constant length `W`: position
`a * W + i` falls in block `a` at offset `i`. -/
lemma flatMap_getElem_blocks {β : Type} (f : β → List String) (d : β) (W : ℕ) :
    ∀ (L : List β), (∀ b ∈ L, (f b).length = W) →
      ∀ a i : ℕ, a < L.length → i < W →
        (L.flatMap f)[a * W + i]? = (f (L.getD a d))[i]? := by
  intro L
  induction L with
  | nil => intro _ a i ha _; exact absurd ha (by simp)
  | cons b rest ih =>
    intro hf a i ha hi
    match a with
    | 0 =>
      rw [List.flatMap_cons, Nat.zero_mul, Nat.zero_add, List.getD_cons_zero]
      exact List.getElem?_append_left (by rw [hf b (by simp)]; exact hi)
    | n + 1 =>
      rw [List.flatMap_cons, List.getD_cons_succ]
      have hlen : (f b).length = W := hf b (by simp)
      have hidx : (n + 1) * W + i = (f b).length + (n * W + i) := by
        rw [hlen]; ring
      rw [hidx, List.getElem?_append_right (by omega)]
      have : (f b).length + (n * W + i) - (f b).length = n * W + i := by omega
      rw [this]
      exact ih (fun x hx => hf x (by simp [hx])) n i (by simpa using ha) hi

/-- The pixel line at row `j`, column `i` sits at stream position
`3 + (H-1-j)*W + i` of the rendered output. -/
lemma renderScene_getElem (ss : List Sphere) (cam light : Vec) (W H : ℕ)
    (i j : ℕ) (hi : i < W) (hj : j < H) :
    (renderScene ss cam light W H)[3 + (H - 1 - j) * W + i]? =
      some (pixelLine ss cam light (uCoord W i) (vCoord H j)) := by
  unfold renderScene
  rw [show 3 + (H - 1 - j) * W + i
      = (["P3", toString W ++ " " ++ toString H, "255"] : List String).length
        + ((H - 1 - j) * W + i) by simp; ring]
  rw [List.getElem?_append_right (by omega)]
  have : (["P3", toString W ++ " " ++ toString H, "255"] : List String).length
      + ((H - 1 - j) * W + i)
      - (["P3", toString W ++ " " ++ toString H, "255"] : List String).length
      = (H - 1 - j) * W + i := by omega
  rw [this]
  rw [flatMap_getElem_blocks _ 0 W _ (by intro b _; simp) (H - 1 - j) i
    (by simp; omega) hi]
  have hidx : ((List.range H).reverse.getD (H - 1 - j) 0) = j := by
    have h1 : H - 1 - j < (List.range H).reverse.length := by simp; omega
    rw [List.getD_eq_getElem _ _ h1, List.getElem_reverse]
    rw [List.getElem_range]
    simp only [List.length_range]
    omega
  rw [hidx]
  rw [List.getElem?_map]
  rw [List.getElem?_range hi]
  rfl

lemma renderScene_length (ss : List Sphere) (cam light : Vec) (W H : ℕ) :
    (renderScene ss cam light W H).length = 3 + H * W := by
  unfold renderScene
  rw [List.length_append]
  have : ((List.range H).reverse.flatMap fun j =>
      (List.range W).map fun i =>
        pixelLine ss cam light (uCoord W i) (vCoord H j)).length = H * W := by
    rw [List.flatMap_def, List.length_flatten]
    rw [List.map_map]
    have hconst : ((List.range H).reverse.map
        (List.length ∘ fun j => (List.range W).map fun i =>
          pixelLine ss cam light (uCoord W i) (vCoord H j)))
        = List.replicate H W := by
      rw [List.eq_replicate_iff]
      refine ⟨by simp, ?_⟩
      intro b hb
      obtain ⟨j, _, rfl⟩ := List.mem_map.mp hb
      simp
    rw [hconst, List.sum_replicate, smul_eq_mul]
  rw [this]
  simp

/-- C6: the output stream is the header lines `P3`, `1024 1024`, `255`
followed by exactly `1024*1024` pixel lines, the line for pixel `(i,j)`
(three integers in `[0,255]` separated by single spaces) sitting at
position `3 + (1023-j)*1024 + i` — rows in descending `j`, columns in
ascending `i` — with `u = -1 + 2i/1023` and `v = -1 + 2j/1023`, both in
`[-1,1]`. -/
theorem output_format :
    outputLines.take 3 = ["P3", "1024 1024", "255"] ∧
    outputLines.length = 3 + 1024 * 1024 ∧
    (∀ i j : ℕ, i < 1024 → j < 1024 →
      outputLines[3 + (1023 - j) * 1024 + i]? =
        some (pixelLine sceneList ORIGIN LIGHT (uCoord 1024 i) (vCoord 1024 j))) ∧
    (∀ (ss : List Sphere) (cam light : Vec) (u v : ℝ),
      pixelLine ss cam light u v =
        toString (clip (renderPixel ss cam light u v).x) ++ " " ++
        toString (clip (renderPixel ss cam light u v).y) ++ " " ++
        toString (clip (renderPixel ss cam light u v).z)) ∧
    (∀ c : ℝ, 0 ≤ clip c ∧ clip c ≤ 255) ∧
    (∀ i : ℕ, i < 1024 →
      uCoord 1024 i = -1 + 2 * (i : ℝ) / 1023 ∧
      -1 ≤ uCoord 1024 i ∧ uCoord 1024 i ≤ 1) ∧
    (∀ j : ℕ, j < 1024 →
      vCoord 1024 j = -1 + 2 * (j : ℝ) / 1023 ∧
      -1 ≤ vCoord 1024 j ∧ vCoord 1024 j ≤ 1) := by
  have hu : ∀ i : ℕ, i < 1024 →
      uCoord 1024 i = -1 + 2 * (i : ℝ) / 1023 ∧
      -1 ≤ uCoord 1024 i ∧ uCoord 1024 i ≤ 1 := by
    intro i hi
    have hcast : ((1024 : ℕ) : ℝ) - 1 = 1023 := by norm_num
    have hval : uCoord 1024 i = -1 + 2 * (i : ℝ) / 1023 := by
      unfold uCoord; rw [hcast]
    have hile : (i : ℝ) ≤ 1023 := by exact_mod_cast Nat.le_of_lt_succ hi
    have hipos : (0 : ℝ) ≤ (i : ℝ) := Nat.cast_nonneg i
    refine ⟨hval, ?_, ?_⟩
    · rw [hval]
      have : 0 ≤ 2 * (i : ℝ) / 1023 := by positivity
      linarith
    · rw [hval]
      have : 2 * (i : ℝ) / 1023 ≤ 2 := by
        rw [div_le_iff₀ (by norm_num : (0 : ℝ) < 1023)]
        linarith
      linarith
  refine ⟨?_, ?_, ?_, fun ss cam light u v => rfl, clip_spec.2.2.2.1, hu, ?_⟩
  · show (renderScene sceneList ORIGIN LIGHT WIDTH HEIGHT).take 3 = _
    unfold renderScene
    rw [List.take_append_of_le_length (by simp)]
    rfl
  · show (renderScene sceneList ORIGIN LIGHT WIDTH HEIGHT).length = _
    rw [renderScene_length]
    rfl
  · intro i j hi hj
    show (renderScene sceneList ORIGIN LIGHT WIDTH HEIGHT)[_]? = _
    have := renderScene_getElem sceneList ORIGIN LIGHT 1024 1024 i j hi hj
    exact this
  · intro j hj
    have h := hu j hj
    exact ⟨h.1, h.2.1, h.2.2⟩

lemma dot_expand_point (r : Ray) (C : Vec) (t : ℝ) :
    dot (r.P t - C) (r.P t - C) =
      dot (r.A - C) (r.A - C) + 2 * t * dot r.B (r.A - C) + t ^ 2 * dot r.B r.B := by
  simp only [Ray.P, dot, sub_x, sub_y, sub_z, add_x, add_y, add_z, smul_x, smul_y, smul_z]
  ring

/-- A point returned by the intersection test lies on the sphere: with a
unit ray direction, the squared distance from the hit point to the center
is the squared radius. -/
lemma intersect_some_on_sphere {s : Sphere} {r : Ray} {t : ℝ}
    (hB : dot r.B r.B = 1) (h : intersect_sphere s r = some t) :
    dot (r.P t - s.c) (r.P t - s.c) = s.r * s.r := by
  obtain ⟨ht, hdisc, hteq⟩ := intersect_some h
  have hsq := Real.mul_self_sqrt hdisc
  rw [dot_expand_point, hB, hteq]
  linear_combination hsq

lemma scene_getD (k : ℕ) (hk : k < 10) : sceneList.getD k sph0 = mkSphere k := by
  rw [List.getD_eq_getElem _ _ (by rw [sceneList_length]; exact hk)]
  simp [sceneList, N_SPHERES]

/-- C8: every vector the program normalises has strictly positive length
under the fixed scene, camera and light: the camera-ray direction for any
pixel, and — whenever the scan reports a hit — the surface normal, the
view direction, the light direction and the reflection vector; so the
divisions by the Euclidean norm never divide by zero. -/
theorem normalize_never_zero (i j : ℕ) :
    0 < Real.sqrt (dot (camRayVec i j) (camRayVec i j)) ∧
    (0 ≤ (findHit sceneList (camRay i j)).2 →
      0 < Real.sqrt (dot (hitNormalVec i j) (hitNormalVec i j)) ∧
      0 < Real.sqrt (dot (viewVec i j) (viewVec i j)) ∧
      0 < Real.sqrt (dot (lightVec i j) (lightVec i j)) ∧
      0 < Real.sqrt (dot (reflVec i j) (reflVec i j))) := by
  have hw : 0 < dot (camRayVec i j) (camRayVec i j) := by
    have hexp : dot (camRayVec i j) (camRayVec i j)
        = uCoord WIDTH i * uCoord WIDTH i + vCoord HEIGHT j * vCoord HEIGHT j + 4 := by
      simp only [camRayVec, dot, sub_x, sub_y, sub_z, ORIGIN]
      ring
    rw [hexp]
    nlinarith [sq_nonneg (uCoord WIDTH i), sq_nonneg (vCoord HEIGHT j)]
  refine ⟨Real.sqrt_pos.mpr hw, ?_⟩
  intro hres
  have hB : dot (camRay i j).B (camRay i j).B = 1 := dot_norm_self hw
  rcases findHit_cases sceneList (camRay i j) with ⟨h1, h2, _⟩ |
    ⟨k, hk, t, hint, h1, h2, _, _⟩
  · rw [h2] at hres; exact absurd hres (by norm_num)
  rw [sceneList_length] at hk
  have hT : hitT i j = t := by unfold hitT; rw [h1]; rfl
  have hS : hitSphere i j = mkSphere k := by
    unfold hitSphere; rw [h2]; simp only [Int.toNat_natCast]; exact scene_getD k hk
  rw [scene_getD k hk] at hint
  obtain ⟨htpos, _, _⟩ := intersect_some hint
  have hHP : hitPoint i j = (camRay i j).P t := by unfold hitPoint; rw [hT]
  have hNv : hitNormalVec i j = (camRay i j).P t - (mkSphere k).c := by
    unfold hitNormalVec; rw [hHP, hS]
  have hVv : viewVec i j = ORIGIN - (camRay i j).P t := by unfold viewVec; rw [hHP]
  have hLv : lightVec i j = LIGHT - (camRay i j).P t := by unfold lightVec; rw [hHP]
  -- the hit point lies on the sphere of radius 0.75
  have hNw : dot ((camRay i j).P t - (mkSphere k).c) ((camRay i j).P t - (mkSphere k).c)
      = (0.75 : ℝ) * 0.75 := by
    have := intersect_some_on_sphere hB hint
    rwa [show (mkSphere k).r = (0.75 : ℝ) from rfl] at this
  have hNpos : 0 < dot ((camRay i j).P t - (mkSphere k).c)
      ((camRay i j).P t - (mkSphere k).c) := by
    rw [hNw]; norm_num
  -- view direction: ORIGIN - P = -(t * direction), length² = t²
  have hVexp : dot (ORIGIN - (camRay i j).P t) (ORIGIN - (camRay i j).P t)
      = t ^ 2 * dot (camRay i j).B (camRay i j).B := by
    have hA : (camRay i j).A = ORIGIN := rfl
    rw [← hA]
    simp only [Ray.P, dot, sub_x, sub_y, sub_z, add_x, add_y, add_z, smul_x, smul_y, smul_z]
    ring
  have hVpos : 0 < dot (ORIGIN - (camRay i j).P t) (ORIGIN - (camRay i j).P t) := by
    rw [hVexp, hB]
    nlinarith [htpos]
  -- light direction: the z coordinate alone keeps it away from zero
  have hNz : ((camRay i j).P t - (mkSphere k).c).z ≤ 0.75 := by
    have hd : ((camRay i j).P t - (mkSphere k).c).x * ((camRay i j).P t - (mkSphere k).c).x +
        ((camRay i j).P t - (mkSphere k).c).y * ((camRay i j).P t - (mkSphere k).c).y +
        ((camRay i j).P t - (mkSphere k).c).z * ((camRay i j).P t - (mkSphere k).c).z
        = 0.75 * 0.75 := hNw
    nlinarith [sq_nonneg ((camRay i j).P t - (mkSphere k).c).x,
      sq_nonneg ((camRay i j).P t - (mkSphere k).c).y,
      sq_nonneg (((camRay i j).P t - (mkSphere k).c).z - 0.75),
      sq_nonneg (((camRay i j).P t - (mkSphere k).c).z + 0.75)]
  have hcz : (mkSphere k).c.z = -2 - (k : ℝ) * 0.5 := rfl
  have hPz : ((camRay i j).P t).z ≤ -1.25 := by
    have hsplit : ((camRay i j).P t).z
        = ((camRay i j).P t - (mkSphere k).c).z + (mkSphere k).c.z := by
      simp only [sub_z]; ring
    rw [hsplit, hcz]
    have : (0 : ℝ) ≤ (k : ℝ) := Nat.cast_nonneg k
    linarith
  have hLz : (11.25 : ℝ) ≤ (LIGHT - (camRay i j).P t).z := by
    simp only [sub_z, LIGHT]
    linarith
  have hLpos : 0 < dot (LIGHT - (camRay i j).P t) (LIGHT - (camRay i j).P t) := by
    have hzpos : (0 : ℝ) < (LIGHT - (camRay i j).P t).z := by linarith
    simp only [dot]
    nlinarith [sq_nonneg (LIGHT - (camRay i j).P t).x,
      sq_nonneg (LIGHT - (camRay i j).P t).y, mul_pos hzpos hzpos]
  -- reflection vector: with unit N and L its squared length is exactly 1
  have hNN : dot (norm ((camRay i j).P t - (mkSphere k).c))
      (norm ((camRay i j).P t - (mkSphere k).c)) = 1 := dot_norm_self hNpos
  have hLL : dot (norm (LIGHT - (camRay i j).P t)) (norm (LIGHT - (camRay i j).P t)) = 1 :=
    dot_norm_self hLpos
  have hRv : reflVec i j =
      smul (2 * dot (norm ((camRay i j).P t - (mkSphere k).c))
          (norm (LIGHT - (camRay i j).P t)))
        (norm ((camRay i j).P t - (mkSphere k).c)) - norm (LIGHT - (camRay i j).P t) := by
    unfold reflVec
    rw [hNv, hLv]
  have hRpos : 0 < dot (reflVec i j) (reflVec i j) := by
    rw [hRv]
    have hexp : dot
        (smul (2 * dot (norm ((camRay i j).P t - (mkSphere k).c))
            (norm (LIGHT - (camRay i j).P t)))
          (norm ((camRay i j).P t - (mkSphere k).c)) - norm (LIGHT - (camRay i j).P t))
        (smul (2 * dot (norm ((camRay i j).P t - (mkSphere k).c))
            (norm (LIGHT - (camRay i j).P t)))
          (norm ((camRay i j).P t - (mkSphere k).c)) - norm (LIGHT - (camRay i j).P t))
        = 4 * dot (norm ((camRay i j).P t - (mkSphere k).c))
              (norm (LIGHT - (camRay i j).P t)) *
            dot (norm ((camRay i j).P t - (mkSphere k).c))
              (norm (LIGHT - (camRay i j).P t)) *
            dot (norm ((camRay i j).P t - (mkSphere k).c))
              (norm ((camRay i j).P t - (mkSphere k).c))
          - 4 * dot (norm ((camRay i j).P t - (mkSphere k).c))
              (norm (LIGHT - (camRay i j).P t)) *
            dot (norm ((camRay i j).P t - (mkSphere k).c))
              (norm (LIGHT - (camRay i j).P t))
          + dot (norm (LIGHT - (camRay i j).P t)) (norm (LIGHT - (camRay i j).P t)) := by
      simp only [dot, smul, sub_x, sub_y, sub_z, smul_x, smul_y, smul_z]
      ring
    rw [hexp, hNN, hLL]
    nlinarith [sq_nonneg (dot (norm ((camRay i j).P t - (mkSphere k).c))
      (norm (LIGHT - (camRay i j).P t)))]
  refine ⟨?_, ?_, ?_, ?_⟩
  · rw [hNv]; exact Real.sqrt_pos.mpr hNpos
  · rw [hVv]; exact Real.sqrt_pos.mpr hVpos
  · rw [hLv]; exact Real.sqrt_pos.mpr hLpos
  · exact Real.sqrt_pos.mpr hRpos

/-- C7: the pipeline is a pure function of its fixed configuration, so
any two runs yield identical output streams, both for the program's own
scene and for the spec's 4×4 single-sphere scenario. -/
theorem render_deterministic :
    (∀ o1 o2 : List String, o1 = outputLines → o2 = outputLines → o1 = o2) ∧
    (∀ (col : Vec) (rf : ℝ) (light : Vec) (o1 o2 : List String),
      o1 = renderScene [⟨⟨0, 0, -3⟩, 0.75, col, rf⟩] ⟨0, 0, 2⟩ light 4 4 →
      o2 = renderScene [⟨⟨0, 0, -3⟩, 0.75, col, rf⟩] ⟨0, 0, 2⟩ light 4 4 →
      o1 = o2) :=
  ⟨fun _ _ h1 h2 => h1.trans h2.symm,
   fun _ _ _ _ _ h1 h2 => h1.trans h2.symm⟩

end RT
